import Mathlib

/-!
Verification of the LSP client in `src/pycodium/utils/lsp_client.py`
(`BasedPyrightLSPClient`): a JSON-RPC-over-stdio transport with
Content-Length framing, request/response correlation via a pending-request
map, and process lifecycle management.

The Python code is shallowly embedded: JSON values become an inductive
type, the pending-request dict becomes an association list with unique
keys, the byte stream becomes a list of naturals, and each method of the
client becomes a pure function over these.  Exceptions raised by the
Python code are modelled with `Except` or explicit outcome markers.
-/

namespace LspClient

/-- JSON values as produced by Python's `json.loads` / consumed by
`json.dumps`.  Numbers are restricted to integers, which covers every
value the client inspects (request ids, `Content-Length`). -/
inductive JsonValue where
  | null
  | bool (b : Bool)
  | num (n : Int)
  | str (s : String)
  | arr (elems : List JsonValue)
  | obj (fields : List (String × JsonValue))
deriving Repr

/-- Lookup of a key in a JSON object, Python `message.get(key)` /
`key in message`.  `json.loads` produces dicts with unique keys, so the
first match is the binding.  Non-objects have no keys. -/
def jsonGet : JsonValue → String → Option JsonValue
  | .obj fields, key => fields.lookup key
  | _, _ => none

/-- The list of keys of a JSON object (Python dict insertion order). -/
def jsonKeys : JsonValue → List String
  | .obj fields => fields.map (·.1)
  | _ => []

/-! ## Facade response normalization

`get_completions`, `get_declaration`, `get_definition` post-process the
raw `result` value of the server's response (which `_send_request`
returns).  Each is embedded as the function from the raw response value
to the returned value. -/

/-- Embeds `BasedPyrightLSPClient.get_completions` (lines 76-80): a dict
response containing the key `"items"` yields that value, a list response
is returned as is, everything else yields the empty list. -/
def get_completions_result (response : JsonValue) : JsonValue :=
  match response with
  | .obj fields =>
      match fields.lookup "items" with
      | some items => items
      | none => .arr []
  | .arr elems => .arr elems
  | _ => .arr []

/-- Embeds `BasedPyrightLSPClient.get_declaration` (lines 101-105): the
raw response is returned unchanged (`return response`). -/
def get_declaration_result (response : JsonValue) : JsonValue :=
  response

/-- Embeds `BasedPyrightLSPClient.get_definition` (lines 107-115): a list
is returned unchanged, a dict is wrapped into a one-element list,
everything else (including null) yields the empty list. -/
def get_definition_result (response : JsonValue) : JsonValue :=
  match response with
  | .arr elems => .arr elems
  | .obj fields => .arr [.obj fields]
  | _ => .arr []

/-! ## Message construction

`_send_request` (lines 189-193) and `_send_notification` (lines 215-218)
build the JSON-RPC message dict, adding a `"params"` entry only when the
Python `params` argument is not `None`. -/

/-- Embeds the message built by `BasedPyrightLSPClient._send_request`
(lines 189-193): `{"jsonrpc": "2.0", "id": request_id, "method": method}`
with `params` appended only if not `None` (dict insertion order). -/
def build_request_message (request_id : Nat) (method : String)
    (params : Option JsonValue) : JsonValue :=
  .obj ([("jsonrpc", .str "2.0"), ("id", .num request_id), ("method", .str method)] ++
    match params with
    | some p => [("params", p)]
    | none => [])

/-- Embeds the message built by `BasedPyrightLSPClient._send_notification`
(lines 215-218): `{"jsonrpc": "2.0", "method": method}` with `params`
appended only if not `None`. -/
def build_notification_message (method : String)
    (params : Option JsonValue) : JsonValue :=
  .obj ([("jsonrpc", .str "2.0"), ("method", .str method)] ++
    match params with
    | some p => [("params", p)]
    | none => [])

/-- The shutdown request sent by `stop_server` (line 50):
`self._send_request("shutdown", None)`. -/
def stop_server_shutdown_message (request_id : Nat) : JsonValue :=
  build_request_message request_id "shutdown" none

/-- The exit notification sent by `stop_server` (line 53):
`self._send_notification("exit", None)`. -/
def stop_server_exit_message : JsonValue :=
  build_notification_message "exit" none

/-! ## Request id allocation

`_send_request` (lines 185-186) allocates ids by
`self.request_id += 1; request_id = self.request_id`.  The counter starts
at 0 (`__init__`, line 16).  The increment-then-read runs with no `await`
between the two statements, so under asyncio's single-threaded event loop
concurrent senders observe it atomically; allocation is therefore a pure
function of the counter. -/

/-- The ids produced by `n` successive allocations starting from counter
value `c` (fresh client: `c = 0`). -/
def allocIds (c : Nat) : Nat → List Nat
  | 0 => []
  | n + 1 => (c + 1) :: allocIds (c + 1) n

/-! ## The pending-request map and response processing

`self.pending_requests : dict[int, asyncio.Future]`.  A future is either
still pending or already resolved (with a result or an exception); the
entry stays in the dict until the awaiting `_send_request` call resumes
and pops it (line 207). -/

/-- The state of an `asyncio.Future` held in `pending_requests`. -/
inductive FutureState where
  | pending
  | resolvedOk (result : JsonValue)
  | resolvedErr (error : JsonValue)
deriving Repr

/-- The pending-request dict: an association list with unique integer
keys (JSON-RPC ids are ints). -/
abbrev PendingMap := List (Int × FutureState)

/-- Dict lookup: `request_id in self.pending_requests` /
`self.pending_requests[request_id]`. -/
def lookupPending (m : PendingMap) (k : Int) : Option FutureState :=
  m.lookup k

/-- Dict assignment `self.pending_requests[k] = v`: replaces the binding
if the key exists, otherwise appends it. -/
def setPending (m : PendingMap) (k : Int) (v : FutureState) : PendingMap :=
  match m with
  | [] => [(k, v)]
  | (k', v') :: rest =>
      if k = k' then (k, v) :: rest else (k', v') :: setPending rest k v

/-- Dict removal `self.pending_requests.pop(k, None)`. -/
def erasePending (m : PendingMap) (k : Int) : PendingMap :=
  m.filter (fun p => p.1 ≠ k)

/-- Registration of a fresh future under a new id
(`self.pending_requests[request_id] = future`, line 197). -/
def registerPending (m : PendingMap) (k : Int) : PendingMap :=
  setPending m k .pending

/-- The exception escaping `_process_message`:
`asyncio.InvalidStateError`, raised by `Future.set_result` /
`Future.set_exception` on a future that is already resolved. -/
inductive PyErr where
  | invalidState
deriving Repr, DecidableEq

/-- Where `_process_message` routed a message (observation of which
branch of the code ran). -/
inductive MessageRoute where
  | resolved (id : Int)
  | ignoredResponse
  | notification (method : Option JsonValue)
deriving Repr

/-- Embeds `BasedPyrightLSPClient._process_message` (lines 285-300).
A message with an `"id"` key whose value matches a key of
`pending_requests` resolves that future: with the `"error"` payload if
the message has an `"error"` key, otherwise with `message.get("result")`
(missing `result` gives `None`).  `set_result`/`set_exception` on an
already-resolved future raise `InvalidStateError`, which no handler on
this path catches.  An id with no pending entry falls through silently.
A message without `"id"` only logs the notification. -/
def process_message (pending : PendingMap) (message : JsonValue) :
    Except PyErr (PendingMap × MessageRoute) :=
  match jsonGet message "id" with
  | some idValue =>
      match idValue with
      | .num request_id =>
          match lookupPending pending request_id with
          | some fut =>
              match fut with
              | .pending =>
                  match jsonGet message "error" with
                  | some err =>
                      .ok (setPending pending request_id (.resolvedErr err),
                        .resolved request_id)
                  | none =>
                      .ok (setPending pending request_id
                        (.resolvedOk ((jsonGet message "result").getD .null)),
                        .resolved request_id)
              | _ => .error .invalidState
          | none => .ok (pending, .ignoredResponse)
      | _ => .ok (pending, .ignoredResponse)
  | none => .ok (pending, .notification (jsonGet message "method"))

/-- A well-formed JSON-RPC result response with integer id `k` (the shape
the server sends for a successful request). -/
def responseMessage (k : Int) (result : JsonValue) : JsonValue :=
  .obj [("jsonrpc", .str "2.0"), ("id", .num k), ("result", result)]

/-! ## Timeout handling

`_send_request` awaits the future with `asyncio.wait_for(future, 30.0)`
(line 204); on timeout `wait_for` raises `asyncio.TimeoutError`, and the
`finally` block (line 207) pops the pending entry before the exception
propagates to the caller.  Nothing on this path touches the reader task
or the process. -/

/-- Outcome of an awaited request as seen by the caller. -/
inductive SendOutcome where
  | answered (v : JsonValue)
  | failed (e : JsonValue)
  | timedOut
deriving Repr

/-- Embeds the timeout path of `_send_request` (lines 202-207): the
pending entry for the request's own id is removed and the timeout is
surfaced to the caller. -/
def timeout_cleanup (pending : PendingMap) (request_id : Int) :
    PendingMap × SendOutcome :=
  (erasePending pending request_id, .timedOut)

/-- Registering a batch of requests (each `_send_request` call before it
awaits). -/
def registerAll (pending : PendingMap) (ids : List Int) : PendingMap :=
  ids.foldl registerPending pending

/-- All those requests timing out (each call's `finally` pop). -/
def timeoutAll (pending : PendingMap) (ids : List Int) : PendingMap :=
  ids.foldl (fun m k => (timeout_cleanup m k).1) pending

/-! ## The byte-stream framer

`_handle_responses` (lines 236-283) reads the process's stdout in chunks,
accumulates a byte buffer, and repeatedly extracts `Content-Length`-framed
messages from its front.  Bytes are naturals; the code's `bytes.decode`
on the ASCII header region is modelled as the identity on bytes. -/

/-- A byte string. -/
abbrev Bytes := List Nat

/-- The bytes of an ASCII string literal. -/
def asciiBytes (s : String) : Bytes := s.data.map Char.toNat

/-- The header terminator `b"\r\n\r\n"`. -/
def crlf2 : Bytes := [13, 10, 13, 10]

/-- The line separator `b"\r\n"`. -/
def crlf : Bytes := [13, 10]

/-- Index of the first occurrence of `pat` in a byte string, Python
`buffer.find(pat)` (with absence as `none` instead of `-1`). -/
def findSub (pat : Bytes) : Bytes → Option Nat
  | [] => if pat.isEmpty then some 0 else none
  | b :: rest =>
      if pat.isPrefixOf (b :: rest) then some 0
      else (findSub pat rest).map (· + 1)

/-- Splitting on `b"\r\n"`, Python `header.split("\r\n")`; the fuel is a
recursion bound (each split removes at least two bytes, so `b.length`
always suffices). -/
def splitLinesFuel : Nat → Bytes → List Bytes
  | 0, b => [b]
  | fuel + 1, b =>
      match findSub crlf b with
      | none => [b]
      | some i => b.take i :: splitLinesFuel fuel (b.drop (i + 2))

/-- Python `header.split("\r\n")`. -/
def splitLinesCRLF (b : Bytes) : List Bytes := splitLinesFuel b.length b

/-- Whether a byte is an ASCII decimal digit. -/
def isDigitB (b : Nat) : Bool := 48 ≤ b && b ≤ 57

/-- Whether a byte is ASCII whitespace (what `str.strip` and `int`
remove: space, tab, LF, CR, VT, FF). -/
def isSpaceB (b : Nat) : Bool :=
  b = 32 || b = 9 || b = 10 || b = 13 || b = 11 || b = 12

/-- Python `str.strip()` on ASCII bytes. -/
def pyStrip (s : Bytes) : Bytes :=
  (s.dropWhile isSpaceB).reverse.dropWhile isSpaceB |>.reverse

/-- Digits of a Python integer literal after the first digit: decimal
digits, with single underscores allowed between digits (byte 95). -/
def pyDigitSeq : Bytes → Nat → Option Nat
  | [], acc => some acc
  | d :: rest, acc =>
      if isDigitB d then pyDigitSeq rest (acc * 10 + (d - 48))
      else if d = 95 then
        match rest with
        | d2 :: rest2 =>
            if isDigitB d2 then pyDigitSeq rest2 (acc * 10 + (d2 - 48)) else none
        | [] => none
      else none

/-- A nonempty digit sequence (the first byte must be a digit, not an
underscore). -/
def pyDigitStart : Bytes → Option Nat
  | d :: rest => if isDigitB d then pyDigitSeq rest (d - 48) else none
  | [] => none

/-- Python `int(s)` on an ASCII byte string: surrounding whitespace, an
optional sign (`+` is 43, `-` is 45), then a digit sequence; `none`
models the `ValueError` raised otherwise. -/
def pyInt (s : Bytes) : Option Int :=
  match pyStrip s with
  | [] => none
  | d :: rest =>
      if d = 43 then (pyDigitStart rest).map (fun n => (n : Int))
      else if d = 45 then (pyDigitStart rest).map (fun n => -(n : Int))
      else (pyDigitStart (d :: rest)).map (fun n => (n : Int))

/-- The header name `b"Content-Length:"` that `line.startswith` tests. -/
def contentLengthName : Bytes := asciiBytes "Content-Length:"

/-- Index of the first occurrence of byte `x`, Python `line.find(chr(x))`. -/
def findByte (x : Nat) : Bytes → Option Nat
  | [] => none
  | b :: rest => if b = x then some 0 else (findByte x rest).map (· + 1)

/-- Embeds the header scan of `_handle_responses` (lines 260-263): the
first line starting with `Content-Length:` yields the text after the
first colon (`line.split(":", 1)[1]`); no such line yields `none`
(`content_length is None`).  A line matching the prefix always contains
a colon, so the inner `none` case is unreachable. -/
def findContentLengthValue : List Bytes → Option Bytes
  | [] => none
  | line :: rest =>
      if contentLengthName.isPrefixOf line then
        match findByte 58 line with
        | some i => some (line.drop (i + 1))
        | none => none
      else findContentLengthValue rest

/-- One iteration of the inner extraction loop of `_handle_responses`. -/
inductive StepR where
  /-- No `b"\r\n\r\n"` in the buffer, or the full body has not arrived:
  `break` out to read more bytes. -/
  | needMore
  /-- No `Content-Length` line: the malformed header region is dropped
  and the loop continues (lines 265-268). -/
  | discard (rest : Bytes)
  /-- A complete message: the body bytes are handed to the JSON-decoding
  stage and the buffer advances past header and body (lines 271-277). -/
  | msg (body : Bytes) (rest : Bytes)
  /-- `int(...)` raised `ValueError` on the `Content-Length` value
  (line 262); nothing on this path catches it, so it escapes the loop. -/
  | crash
  /-- A negative `Content-Length` made `message_start + content_length`
  exactly 0, so the buffer slice `buffer[0:]` leaves the buffer unchanged
  and the Python loop re-processes the same buffer forever.  Modelled as
  a terminal marker; no claim reaches this regime. -/
  | looping
  /-- A negative `Content-Length` made `message_start + content_length`
  negative, so Python's slices count from the end of the buffer.
  Modelled as a terminal marker; no claim reaches this regime. -/
  | negative
deriving Repr

/-- Embeds one iteration of the inner `while True` loop of
`_handle_responses` (lines 250-277): find `b"\r\n\r\n"`, parse
`Content-Length` from the header block, and if the full body is buffered
slice it out (`buffer[message_start : message_start + content_length]`,
which for `0 ≤ message_start + content_length ≤ len(buffer)` is
`take`-then-`drop`) and drop header plus body from the buffer front. -/
def stepOnce (buffer : Bytes) : StepR :=
  match findSub crlf2 buffer with
  | none => .needMore
  | some headerEnd =>
      let header := buffer.take headerEnd
      match findContentLengthValue (splitLinesCRLF header) with
      | none => .discard (buffer.drop (headerEnd + 4))
      | some valueBytes =>
          match pyInt (pyStrip valueBytes) with
          | none => .crash
          | some contentLength =>
              let messageStart : Int := (headerEnd : Int) + 4
              if (buffer.length : Int) < messageStart + contentLength then
                .needMore
              else
                let newStart : Int := messageStart + contentLength
                if newStart < 0 then .negative
                else if newStart = 0 then .looping
                else
                  .msg ((buffer.take newStart.toNat).drop (headerEnd + 4))
                    (buffer.drop newStart.toNat)

/-- How one extraction step transforms when more bytes are appended to
the buffer: a step that already made a decision makes the same decision,
with the new bytes still pending at the end of its residual buffer. -/
def stepAppendR : StepR → Bytes → StepR
  | .needMore, _ => .needMore
  | .discard r, y => .discard (r ++ y)
  | .msg m r, y => .msg m (r ++ y)
  | .crash, _ => .crash
  | .looping, _ => .looping
  | .negative, _ => .negative

/-- Why a run of the extraction loop stopped. -/
inductive DrainStop where
  /-- Stopped normally, waiting for more bytes. -/
  | ok
  /-- `ValueError` escaped the loop. -/
  | crashed
  /-- The loop re-processes the same buffer forever. -/
  | looping
  /-- Entered the negative-slice regime. -/
  | negative
deriving Repr, DecidableEq

/-- Result of draining the buffer: the extracted message bodies in order,
the remaining buffer, and why extraction stopped. -/
structure DrainResult where
  msgs : List Bytes
  rest : Bytes
  stop : DrainStop
deriving Repr

/-- The inner extraction loop, run to quiescence; fuel bounds the
recursion (every productive step shrinks the buffer, so `b.length`
suffices). -/
def drainFuel : Nat → Bytes → DrainResult
  | 0, b => ⟨[], b, .ok⟩
  | fuel + 1, b =>
      match stepOnce b with
      | .needMore => ⟨[], b, .ok⟩
      | .crash => ⟨[], b, .crashed⟩
      | .looping => ⟨[], b, .looping⟩
      | .negative => ⟨[], b, .negative⟩
      | .discard r => drainFuel fuel r
      | .msg m r =>
          let d := drainFuel fuel r
          ⟨m :: d.msgs, d.rest, d.stop⟩

/-- The inner `while True` loop of `_handle_responses`, run until it
breaks to read more bytes (or dies). -/
def drain (b : Bytes) : DrainResult := drainFuel b.length b

/-- State of the `_handle_responses` task: the byte buffer, the message
bodies delivered so far to the JSON-decoding stage, and whether the loop
is still alive. -/
structure FramerState where
  buffer : Bytes
  delivered : List Bytes
  stop : DrainStop
deriving Repr

/-- The fresh state at the top of `_handle_responses`
(`buffer = b""`). -/
def initialFramerState : FramerState := ⟨[], [], .ok⟩

/-- One iteration of the outer read loop with a nonempty chunk:
`buffer += data` followed by the inner extraction loop.  A dead loop
(escaped exception or livelock) processes nothing further. -/
def feedOne (st : FramerState) (chunk : Bytes) : FramerState :=
  if st.stop = .ok then
    let d := drain (st.buffer ++ chunk)
    ⟨d.rest, st.delivered ++ d.msgs, d.stop⟩
  else st

/-- Embeds the outer read loop of `_handle_responses` (lines 243-248) fed
a given sequence of chunks: an empty read means EOF and breaks the
loop. -/
def runFramer : FramerState → List Bytes → FramerState
  | st, [] => st
  | st, chunk :: rest =>
      if chunk.isEmpty then st else runFramer (feedOne st chunk) rest

/-- An arbitrary chunking of a byte stream: successive nonempty chunks of
`sizes[i] + 1` bytes, with whatever remains as a final chunk.  The
concatenation of the chunks is always the original stream, and every
chunking of a stream into nonempty reads arises this way. -/
def chunkBySizes : List Nat → Bytes → List Bytes
  | [], s => [s]
  | n :: ns, s => s.take (n + 1) :: chunkBySizes ns (s.drop (n + 1))

/-- Decimal digit bytes of a natural number, most significant first; the
fuel is a recursion bound (`n + 1` always suffices). -/
def natDigitsFuel : Nat → Nat → List Nat
  | 0, _ => []
  | fuel + 1, n =>
      if n < 10 then [48 + n]
      else natDigitsFuel fuel (n / 10) ++ [48 + n % 10]

/-- The ASCII bytes of `str(n)` for a natural number, as produced by the
f-string in `_write_message`. -/
def natDigits (n : Nat) : List Nat := natDigitsFuel (n + 1) n

/-- Embeds `BasedPyrightLSPClient._write_message` (lines 227-231) at the
byte level: `f"Content-Length: {len(content_bytes)}\r\n\r\n".encode() +
content_bytes`. -/
def write_message_bytes (content : Bytes) : Bytes :=
  asciiBytes "Content-Length: " ++ natDigits content.length ++ crlf2 ++ content

/-- A whole stream of framed messages, as written by successive
`_write_message` calls. -/
def encodeStream (bodies : List Bytes) : Bytes :=
  (bodies.map write_message_bytes).flatten

/-! ## Process shutdown

`stop_server` (lines 45-69) is embedded as a function from an abstract
behavior of the server process (how it reacts to the shutdown protocol
and to signals) to the control-flow outcome of the method. -/

/-- How the language-server process behaves during shutdown. -/
structure ServerBehavior where
  /-- Sending `shutdown`/`exit` raises a non-timeout exception
  (e.g. a broken pipe). -/
  sendRaises : Bool
  /-- The server answers the `shutdown` request within the 30 s request
  timeout of `_send_request`. -/
  shutdownReplies : Bool
  /-- The process exits within the 5 s graceful wait (line 56). -/
  exitsGracefully : Bool
  /-- The process exits after `terminate()` (SIGTERM, line 60). -/
  exitsOnTerminate : Bool
  /-- `returncode is None` when the generic exception handler runs
  (line 64). -/
  aliveAtException : Bool
deriving Repr, DecidableEq

/-- How a `stop_server` call ends. -/
inductive StopOutcome where
  /-- The process exited within the graceful wait; no signal sent. -/
  | gracefulExit
  /-- `terminate()` was sent and the unbounded `wait()` (line 61)
  returned. -/
  | terminatedExit
  /-- The generic exception handler ran `kill()` (line 65). -/
  | killedAfterError
  /-- The generic exception handler found the process already gone. -/
  | returnedAfterError
  /-- `terminate()` was sent but the process ignores it: the unbounded
  `await self.process.wait()` (line 61) never returns. -/
  | hangsForever
deriving Repr, DecidableEq

/-- Embeds the control flow of `BasedPyrightLSPClient.stop_server`
(lines 45-69) for a running process.  A `shutdown` request that gets no
reply raises `asyncio.TimeoutError` out of `_send_request` (line 204),
caught by the same handler as a timeout of the 5 s graceful wait
(line 58); that handler terminates and then waits with no time bound and
no kill.  Only the generic exception handler (lines 62-66) ever calls
`kill()`. -/
def stop_server (b : ServerBehavior) : StopOutcome :=
  if b.sendRaises then
    if b.aliveAtException then .killedAfterError else .returnedAfterError
  else if b.shutdownReplies && b.exitsGracefully then .gracefulExit
  else if b.exitsOnTerminate then .terminatedExit
  else .hangsForever

/-! # Lemmas and claim theorems -/

theorem allocIds_eq_range' (c n : Nat) : allocIds c n = List.range' (c + 1) n := by
  induction n generalizing c with
  | zero => rfl
  | succ n ih => rw [allocIds, ih, List.range'_succ]

theorem lookupPending_erase (m : PendingMap) (k k' : Int) :
    lookupPending (erasePending m k) k' =
      if k' = k then none else lookupPending m k' := by
  induction m with
  | nil => simp [lookupPending, erasePending]
  | cons p rest ih =>
      obtain ⟨a, v⟩ := p
      rcases eq_or_ne a k with hak | hak
      · subst hak
        have h1 : erasePending ((a, v) :: rest) a = erasePending rest a := by
          simp [erasePending]
        rw [lookupPending, h1]
        rw [lookupPending] at ih
        rw [ih]
        rcases eq_or_ne k' a with hk' | hk'
        · simp [hk']
        · have hbeq : (k' == a) = false := by simpa using hk'
          simp [hk', lookupPending, List.lookup, hbeq]
      · have h1 : erasePending ((a, v) :: rest) k = (a, v) :: erasePending rest k := by
          simp [erasePending, hak]
        rw [lookupPending, h1]
        rcases eq_or_ne k' a with hk' | hk'
        · subst hk'
          have hne : k' ≠ k := hak
          have hbeq : (k' == k') = true := by simp
          simp [List.lookup, hne, hbeq, lookupPending]
        · have hbeq : (k' == a) = false := by simpa using hk'
          simp only [List.lookup, hbeq]
          rw [lookupPending] at ih
          rw [ih]
          rcases eq_or_ne k' k with hkk | hkk
          · simp [hkk]
          · simp [hkk, lookupPending, List.lookup, hbeq]

theorem timeoutAll_eq_filter (ids : List Int) (m : PendingMap) :
    timeoutAll m ids = m.filter (fun p => decide (p.1 ∉ ids)) := by
  induction ids generalizing m with
  | nil => simp [timeoutAll]
  | cons k ks ih =>
      have step : timeoutAll m (k :: ks) = timeoutAll (erasePending m k) ks := rfl
      rw [step, ih, erasePending, List.filter_filter]
      apply List.filter_congr
      intro p _
      by_cases h1 : p.1 = k <;> by_cases h2 : p.1 ∈ ks <;> simp [h1, h2]

theorem mem_setPending (m : PendingMap) (k : Int) (v : FutureState)
    (p : Int × FutureState) (hp : p ∈ setPending m k v) : p.1 = k ∨ p ∈ m := by
  induction m with
  | nil =>
      simp [setPending] at hp
      exact Or.inl (by simp [hp])
  | cons q rest ih =>
      obtain ⟨a, w⟩ := q
      rcases eq_or_ne k a with hak | hak
      · subst hak
        simp only [setPending, if_pos rfl] at hp
        rcases List.mem_cons.mp hp with h | h
        · exact Or.inl (by simp [h])
        · exact Or.inr (List.mem_cons_of_mem _ h)
      · simp only [setPending, if_neg hak] at hp
        rcases List.mem_cons.mp hp with h | h
        · exact Or.inr (by simp [h])
        · rcases ih h with h' | h'
          · exact Or.inl h'
          · exact Or.inr (List.mem_cons_of_mem _ h')

theorem mem_registerAll (ids : List Int) (m : PendingMap)
    (p : Int × FutureState) (hp : p ∈ registerAll m ids) : p ∈ m ∨ p.1 ∈ ids := by
  induction ids generalizing m with
  | nil => exact Or.inl hp
  | cons k ks ih =>
      have step : registerAll m (k :: ks) = registerAll (registerPending m k) ks := rfl
      rw [step] at hp
      rcases ih _ hp with h | h
      · rcases mem_setPending _ _ _ _ h with h' | h'
        · exact Or.inr (by simp [h'])
        · exact Or.inl h'
      · exact Or.inr (List.mem_cons_of_mem _ h)

/-- C7: on timeout `_send_request` removes exactly its own pending entry
and surfaces a timeout outcome to that caller; a batch of requests that
all time out leaves the pending map empty.  The timeout path touches
nothing but the pending map, so the reader loop is unaffected. -/
theorem timeout_cleanup_empties_pending (m : PendingMap) (k k' : Int)
    (ids : List Int) :
    (timeout_cleanup m k).2 = SendOutcome.timedOut ∧
    lookupPending (timeout_cleanup m k).1 k' =
      (if k' = k then none else lookupPending m k') ∧
    timeoutAll (registerAll [] ids) ids = [] := by
  refine ⟨rfl, lookupPending_erase m k k', ?_⟩
  rw [timeoutAll_eq_filter]
  rw [List.filter_eq_nil_iff]
  intro p hp
  rcases mem_registerAll ids [] p hp with h | h
  · simp at h
  · simp [h]

/-- C6: request ids allocated by `_send_request` from a fresh client are
positive, strictly increasing in allocation order, and pairwise distinct
(hence never reused within the instance's lifetime). -/
theorem request_id_allocation (n : Nat) :
    (∀ i ∈ allocIds 0 n, 0 < i) ∧
    (allocIds 0 n).Pairwise (· < ·) ∧ (allocIds 0 n).Nodup := by
  rw [allocIds_eq_range']
  refine ⟨?_, List.pairwise_lt_range' _ _ 1 (by omega), List.nodup_range' _ _⟩
  intro i hi
  have := List.mem_range'_1.mp hi
  omega

/-- C2 counterexample: `get_declaration` does not wrap a single-object
response into a one-element list; it returns the raw response
unchanged. -/
theorem get_declaration_not_normalized :
    get_declaration_result (JsonValue.obj [("uri", JsonValue.str "file:///x.py")]) ≠
      JsonValue.arr [JsonValue.obj [("uri", JsonValue.str "file:///x.py")]] :=
  fun h => JsonValue.noConfusion h

/-- C2 amended: `get_definition` normalizes its response (list passed
through, single object wrapped into a one-element list, anything else —
including null — into an empty list), while `get_declaration` returns
the raw response unchanged. -/
theorem definition_normalizes_declaration_raw (r : JsonValue)
    (elems : List JsonValue) (fields : List (String × JsonValue)) :
    get_declaration_result r = r ∧
    get_definition_result (JsonValue.arr elems) = JsonValue.arr elems ∧
    get_definition_result (JsonValue.obj fields) =
      JsonValue.arr [JsonValue.obj fields] ∧
    get_definition_result JsonValue.null = JsonValue.arr [] :=
  ⟨rfl, rfl, rfl, rfl⟩

/-- C9: `get_completions` returns the `"items"` value unchanged when the
response dict has that key, and the empty list for a dict without it or
for a null response. -/
theorem get_completions_normalization (fields : List (String × JsonValue))
    (v : JsonValue) :
    (fields.lookup "items" = none →
        get_completions_result (JsonValue.obj fields) = JsonValue.arr []) ∧
    (fields.lookup "items" = some v →
        get_completions_result (JsonValue.obj fields) = v) ∧
    get_completions_result JsonValue.null = JsonValue.arr [] := by
  refine ⟨?_, ?_, rfl⟩ <;> intro h <;> simp [get_completions_result, h]

theorem get_completions_normalization_witness :
    get_completions_result (JsonValue.obj [("isIncomplete", JsonValue.bool true)]) =
      JsonValue.arr [] ∧
    get_completions_result (JsonValue.obj [("items", JsonValue.str "odd")]) =
      JsonValue.str "odd" :=
  ⟨(get_completions_normalization [("isIncomplete", JsonValue.bool true)]
      JsonValue.null).1 rfl,
   (get_completions_normalization [("items", JsonValue.str "odd")]
      (JsonValue.str "odd")).2.1 rfl⟩

/-- C10: a request or notification built with `params = None` contains
exactly the keys `jsonrpc`, `id` (requests only), `method`, and no
`params` key; `stop_server` builds its `shutdown` request and `exit`
notification exactly this way. -/
theorem params_none_omitted (rid : Nat) (method : String) :
    jsonKeys (build_request_message rid method none) = ["jsonrpc", "id", "method"] ∧
    jsonGet (build_request_message rid method none) "params" = none ∧
    jsonKeys (build_notification_message method none) = ["jsonrpc", "method"] ∧
    jsonGet (build_notification_message method none) "params" = none ∧
    stop_server_shutdown_message rid = build_request_message rid "shutdown" none ∧
    stop_server_exit_message = build_notification_message "exit" none :=
  ⟨rfl, rfl, rfl, rfl, rfl, rfl⟩

/-- C4 counterexample: against a server that ignores the shutdown
protocol and the terminate signal, `stop_server` never returns — the
timeout path has no forced kill, so it does not complete at all. -/
theorem stop_server_hangs_on_stubborn_server :
    stop_server ⟨false, false, false, false, false⟩ = StopOutcome.hangsForever ∧
    StopOutcome.hangsForever ≠ StopOutcome.killedAfterError :=
  ⟨rfl, fun h => StopOutcome.noConfusion h⟩

/-- C4 amended: when sending the shutdown messages raises no exception,
`stop_server` never force-kills; after the graceful phase it sends
terminate and then waits with no bound, so it returns iff the process
dies on terminate and hangs forever otherwise. -/
theorem stop_server_escalation (rep grace term alive : Bool) :
    stop_server ⟨false, rep, grace, term, alive⟩ ≠ StopOutcome.killedAfterError ∧
    (stop_server ⟨false, rep, grace, term, alive⟩ = StopOutcome.hangsForever ↔
      (rep && grace) = false ∧ term = false) := by
  cases rep <;> cases grace <;> cases term <;> cases alive <;> decide

/-- C1 counterexample: a duplicate response for an id whose future is
already resolved but still present in `pending_requests` (the awaiting
caller has not yet resumed and popped it) makes `set_result` raise
`InvalidStateError`, which nothing on the message-processing path
catches. -/
theorem duplicate_response_raises :
    process_message [(7, FutureState.resolvedOk JsonValue.null)]
      (responseMessage 7 JsonValue.null) = Except.error PyErr.invalidState := rfl

/-- C1 amended: a first response for a pending id resolves that future
exactly once without raising, and a response whose id has no pending
entry (already popped by the caller, timed out, or unknown) is discarded
without raising; but a response for an id still mapped to an
already-resolved future raises `InvalidStateError` out of the
message-processing path. -/
theorem response_resolution (m : PendingMap) (k : Int) (res : JsonValue) :
    (lookupPending m k = some .pending →
        process_message m (responseMessage k res) =
          .ok (setPending m k (.resolvedOk res), .resolved k)) ∧
    (lookupPending m k = none →
        process_message m (responseMessage k res) = .ok (m, .ignoredResponse)) ∧
    (∀ v, lookupPending m k = some (.resolvedOk v) →
        process_message m (responseMessage k res) = .error .invalidState) ∧
    (∀ e, lookupPending m k = some (.resolvedErr e) →
        process_message m (responseMessage k res) = .error .invalidState) := by
  refine ⟨fun h => ?_, fun h => ?_, fun v h => ?_, fun e h => ?_⟩ <;>
    simp [process_message, responseMessage, jsonGet, List.lookup, h]

theorem response_resolution_witness :
    process_message [(3, FutureState.pending)] (responseMessage 3 JsonValue.null) =
      .ok ([(3, FutureState.resolvedOk JsonValue.null)], .resolved 3) ∧
    process_message [] (responseMessage 3 JsonValue.null) =
      .ok ([], .ignoredResponse) ∧
    process_message [(3, FutureState.resolvedErr (JsonValue.str "e"))]
      (responseMessage 3 JsonValue.null) = .error .invalidState :=
  ⟨(response_resolution [(3, FutureState.pending)] 3 JsonValue.null).1 rfl,
   (response_resolution [] 3 JsonValue.null).2.1 rfl,
   (response_resolution [(3, FutureState.resolvedErr (JsonValue.str "e"))] 3
      JsonValue.null).2.2.2 (JsonValue.str "e") rfl⟩

/-- C8: a message without an `"id"` key is routed to notification
handling and leaves the pending map (and every future in it) untouched,
whatever its `"method"` is. -/
theorem notification_routing (pending : PendingMap)
    (fields : List (String × JsonValue)) :
    fields.lookup "id" = none →
    process_message pending (JsonValue.obj fields) =
      .ok (pending, .notification (fields.lookup "method")) := by
  intro h
  simp [process_message, jsonGet, h]

theorem notification_routing_witness :
    process_message [(1, FutureState.pending)]
      (JsonValue.obj [("jsonrpc", JsonValue.str "2.0"),
        ("method", JsonValue.str "textDocument/completion")]) =
      .ok ([(1, FutureState.pending)],
        .notification (some (JsonValue.str "textDocument/completion"))) :=
  notification_routing [(1, FutureState.pending)] _ rfl

/-- C3 counterexample: a header block whose `Content-Length` value is
unparseable (`int()` raises `ValueError`) crashes the extraction loop
instead of being discarded. -/
theorem content_length_unparseable_raises :
    stepOnce (asciiBytes "Content-Length: abc" ++ crlf2 ++ asciiBytes "XYZ") =
      StepR.crash ∧
    (drain (asciiBytes "Content-Length: abc" ++ crlf2 ++ asciiBytes "XYZ")).stop =
      DrainStop.crashed :=
  ⟨rfl, rfl⟩

/-- C3 amended: a header block with no `Content-Length` line is discarded
(the buffer advances past the header terminator) and the loop continues
without raising; but a `Content-Length` line whose value is unparseable
raises `ValueError` out of the loop. -/
theorem malformed_header_handling (buffer : Bytes) (headerEnd : Nat) :
    findSub crlf2 buffer = some headerEnd →
    ((findContentLengthValue (splitLinesCRLF (buffer.take headerEnd)) = none →
        stepOnce buffer = .discard (buffer.drop (headerEnd + 4))) ∧
      ∀ v, findContentLengthValue (splitLinesCRLF (buffer.take headerEnd)) = some v →
        pyInt (pyStrip v) = none → stepOnce buffer = .crash) := by
  intro h
  constructor
  · intro h2
    unfold stepOnce
    rw [h]
    simp [h2]
  · intro v h2 h3
    unfold stepOnce
    rw [h]
    simp [h2, h3]

/-! ## Framer lemmas: extraction is stable under appending bytes -/

theorem isPrefixOf_append_right (p b y : Bytes) (h : p.isPrefixOf b) :
    p.isPrefixOf (b ++ y) := by
  rw [ List.isPrefixOf_iff_prefix] at h ⊢
  exact h.trans (List.prefix_append b y)

theorem findSub_some_le (pat b : Bytes) (i : Nat) (h : findSub pat b = some i) :
    i + pat.length ≤ b.length := by
  induction b generalizing i with
  | nil =>
      unfold findSub at h
      by_cases hp : pat.isEmpty
      · rw [if_pos hp] at h
        cases h
        simp [List.isEmpty_iff.mp hp]
      · rw [if_neg hp] at h
        cases h
  | cons x rest ih =>
      unfold findSub at h
      by_cases hp : pat.isPrefixOf (x :: rest)
      · rw [if_pos hp] at h
        cases h
        have := ( List.isPrefixOf_iff_prefix.mp hp).length_le
        simpa using this
      · rw [if_neg hp] at h
        cases hj : findSub pat rest with
        | none => rw [hj] at h; cases h
        | some j =>
            rw [hj] at h
            simp only [Option.map_some'] at h
            cases h
            have := ih j hj
            simp only [List.length_cons]
            omega

theorem findSub_append (pat b y : Bytes) (i : Nat) (h : findSub pat b = some i) :
    findSub pat (b ++ y) = some i := by
  induction b generalizing i with
  | nil =>
      unfold findSub at h
      by_cases hp : pat.isEmpty
      · rw [if_pos hp] at h
        cases h
        have hpe : pat = [] := List.isEmpty_iff.mp hp
        subst hpe
        cases y with
        | nil => rfl
        | cons a t =>
            show findSub [] (a :: t) = some 0
            unfold findSub
            rw [if_pos (by simp [List.isPrefixOf])]
      · rw [if_neg hp] at h
        cases h
  | cons x rest ih =>
      unfold findSub at h
      by_cases hp : pat.isPrefixOf (x :: rest)
      · rw [if_pos hp] at h
        cases h
        have h2 : List.isPrefixOf pat (x :: (rest ++ y)) = true := by
          simpa using isPrefixOf_append_right pat (x :: rest) y hp
        show findSub pat (x :: (rest ++ y)) = some 0
        unfold findSub
        simp [h2]
      · rw [if_neg hp] at h
        cases hj : findSub pat rest with
        | none => rw [hj] at h; cases h
        | some j =>
            rw [hj] at h
            simp only [Option.map_some'] at h
            cases h
            have hlen := findSub_some_le pat rest j hj
            have hp2 : ¬ pat.isPrefixOf (x :: (rest ++ y)) := by
              intro hc
              apply hp
              rw [ List.isPrefixOf_iff_prefix, List.prefix_iff_eq_take] at hc ⊢
              have hle : pat.length ≤ (x :: rest).length := by
                simp only [List.length_cons]; omega
              rw [show x :: (rest ++ y) = (x :: rest) ++ y from rfl,
                List.take_append_of_le_length hle] at hc
              exact hc
            have h2 : List.isPrefixOf pat (x :: (rest ++ y)) = false :=
              Bool.eq_false_iff.mpr hp2
            show findSub pat (x :: (rest ++ y)) = some (j + 1)
            unfold findSub
            simp [h2, ih j hj]

theorem stepOnce_spec (b y : Bytes) :
    (stepOnce b = .needMore ∨ stepOnce (b ++ y) = stepAppendR (stepOnce b) y) ∧
    (∀ r, stepOnce b = .discard r → r.length < b.length) ∧
    (∀ m r, stepOnce b = .msg m r → r.length < b.length) := by
  cases hf : findSub crlf2 b with
  | none =>
      have hb : stepOnce b = .needMore := by unfold stepOnce; rw [hf]
      exact ⟨Or.inl hb, fun r hr => (by rw [hb] at hr; cases hr),
        fun m r hr => (by rw [hb] at hr; cases hr)⟩
  | some he =>
      have hle : he + 4 ≤ b.length := by
        have := findSub_some_le crlf2 b he hf
        simpa [crlf2] using this
      have hf2 : findSub crlf2 (b ++ y) = some he := findSub_append _ _ _ _ hf
      have htake : (b ++ y).take he = b.take he :=
        List.take_append_of_le_length (by omega)
      cases hc : findContentLengthValue (splitLinesCRLF (b.take he)) with
      | none =>
          have hb : stepOnce b = .discard (b.drop (he + 4)) := by
            unfold stepOnce; rw [hf]; simp [hc]
          have hby : stepOnce (b ++ y) = .discard ((b ++ y).drop (he + 4)) := by
            unfold stepOnce; rw [hf2]; simp [htake, hc]
          have hdrop : (b ++ y).drop (he + 4) = b.drop (he + 4) ++ y :=
            List.drop_append_of_le_length (by omega)
          refine ⟨Or.inr ?_, fun r hr => ?_, fun m r hr => ?_⟩
          · rw [hb, hby, hdrop]; rfl
          · rw [hb] at hr
            cases hr
            simp only [List.length_drop]
            omega
          · rw [hb] at hr; cases hr
      | some v =>
          cases hpi : pyInt (pyStrip v) with
          | none =>
              have hb : stepOnce b = .crash := by
                unfold stepOnce; rw [hf]; simp [hc, hpi]
              have hby : stepOnce (b ++ y) = .crash := by
                unfold stepOnce; rw [hf2]; simp [htake, hc, hpi]
              exact ⟨Or.inr (by rw [hb, hby]; rfl),
                fun r hr => (by rw [hb] at hr; cases hr),
                fun m r hr => (by rw [hb] at hr; cases hr)⟩
          | some cl =>
              by_cases hlt : (b.length : Int) < ((he : Int) + 4) + cl
              · have hb : stepOnce b = .needMore := by
                  unfold stepOnce; rw [hf]; simp [hc, hpi, hlt]
                exact ⟨Or.inl hb, fun r hr => (by rw [hb] at hr; cases hr),
                  fun m r hr => (by rw [hb] at hr; cases hr)⟩
              · have hlt2 : ¬ ((b ++ y).length : Int) < ((he : Int) + 4) + cl := by
                  simp only [List.length_append]
                  push_neg at hlt ⊢
                  omega
                by_cases hneg : ((he : Int) + 4) + cl < 0
                · have hb : stepOnce b = .negative := by
                    unfold stepOnce; rw [hf]; simp [hc, hpi, hlt, hneg]
                  have hby : stepOnce (b ++ y) = .negative := by
                    unfold stepOnce; rw [hf2]
                    simp [htake, hc, hpi, hlt2, hneg] <;> omega
                  exact ⟨Or.inr (by rw [hb, hby]; rfl),
                    fun r hr => (by rw [hb] at hr; cases hr),
                    fun m r hr => (by rw [hb] at hr; cases hr)⟩
                · by_cases hzero : ((he : Int) + 4) + cl = 0
                  · have hb : stepOnce b = .looping := by
                      unfold stepOnce; rw [hf]; simp [hc, hpi, hlt, hneg, hzero]
                    have hby : stepOnce (b ++ y) = .looping := by
                      unfold stepOnce; rw [hf2]
                      simp [htake, hc, hpi, hlt2, hneg, hzero] <;> omega
                    exact ⟨Or.inr (by rw [hb, hby]; rfl),
                      fun r hr => (by rw [hb] at hr; cases hr),
                      fun m r hr => (by rw [hb] at hr; cases hr)⟩
                  · have hpos : 0 < ((he : Int) + 4) + cl := by omega
                    have hnsle : (((he : Int) + 4) + cl).toNat ≤ b.length := by omega
                    have hnspos : 0 < (((he : Int) + 4) + cl).toNat := by omega
                    have htake2 : (b ++ y).take (((he : Int) + 4) + cl).toNat =
                        b.take (((he : Int) + 4) + cl).toNat :=
                      List.take_append_of_le_length hnsle
                    have hdrop2 : (b ++ y).drop (((he : Int) + 4) + cl).toNat =
                        b.drop (((he : Int) + 4) + cl).toNat ++ y :=
                      List.drop_append_of_le_length hnsle
                    have hb : stepOnce b =
                        .msg ((b.take (((he : Int) + 4) + cl).toNat).drop (he + 4))
                          (b.drop (((he : Int) + 4) + cl).toNat) := by
                      unfold stepOnce; rw [hf]; simp [hc, hpi, hlt, hneg, hzero]
                    have hby : stepOnce (b ++ y) =
                        .msg ((b.take (((he : Int) + 4) + cl).toNat).drop (he + 4))
                          (b.drop (((he : Int) + 4) + cl).toNat ++ y) := by
                      unfold stepOnce; rw [hf2]
                      simp [htake, hc, hpi, hlt2, hneg, hzero, htake2, hdrop2] <;>
                        omega
                    refine ⟨Or.inr ?_, fun r hr => ?_, fun m r hr => ?_⟩
                    · rw [hb, hby]; rfl
                    · rw [hb] at hr; cases hr
                    · rw [hb] at hr
                      cases hr
                      simp only [List.length_drop]
                      omega

theorem drainFuel_eq_drain (fuel : Nat) : ∀ (b : Bytes), b.length ≤ fuel →
    drainFuel fuel b = drain b := by
  induction fuel using Nat.strong_induction_on with
  | _ fuel ih =>
      intro b h
      cases fuel with
      | zero =>
          have hb : b = [] := List.length_eq_zero.mp (Nat.le_zero.mp h)
          subst hb
          rfl
      | succ f =>
          unfold drain
          cases hb : b.length with
          | zero =>
              have hb0 : b = [] := List.length_eq_zero.mp hb
              subst hb0
              rfl
          | succ l =>
              cases hs : stepOnce b with
              | needMore => simp [drainFuel, hs]
              | crash => simp [drainFuel, hs]
              | looping => simp [drainFuel, hs]
              | negative => simp [drainFuel, hs]
              | discard r =>
                  have hr := (stepOnce_spec b []).2.1 r hs
                  simp only [drainFuel, hs]
                  rw [ih f (by omega) r (by omega), ih l (by omega) r (by omega)]
              | msg m r =>
                  have hr := (stepOnce_spec b []).2.2 m r hs
                  simp only [drainFuel, hs]
                  rw [ih f (by omega) r (by omega), ih l (by omega) r (by omega)]

theorem drain_eq (b : Bytes) :
    drain b =
      match stepOnce b with
      | .needMore => ⟨[], b, .ok⟩
      | .crash => ⟨[], b, .crashed⟩
      | .looping => ⟨[], b, .looping⟩
      | .negative => ⟨[], b, .negative⟩
      | .discard r => drain r
      | .msg m r => ⟨m :: (drain r).msgs, (drain r).rest, (drain r).stop⟩ := by
  cases hb : b.length with
  | zero =>
      have hb0 : b = [] := List.length_eq_zero.mp hb
      subst hb0
      rfl
  | succ l =>
      unfold drain
      rw [hb]
      cases hs : stepOnce b with
      | needMore => simp [drainFuel, hs]
      | crash => simp [drainFuel, hs]
      | looping => simp [drainFuel, hs]
      | negative => simp [drainFuel, hs]
      | discard r =>
          have hr := (stepOnce_spec b []).2.1 r hs
          simp only [drainFuel, hs]
          exact drainFuel_eq_drain l r (by omega)
      | msg m r =>
          have hr := (stepOnce_spec b []).2.2 m r hs
          simp only [drainFuel, hs]
          rw [drainFuel_eq_drain l r (by omega)]
          rfl

theorem drain_append (x y : Bytes) :
    drain (x ++ y) =
      if (drain x).stop = .ok then
        ⟨(drain x).msgs ++ (drain ((drain x).rest ++ y)).msgs,
          (drain ((drain x).rest ++ y)).rest,
          (drain ((drain x).rest ++ y)).stop⟩
      else ⟨(drain x).msgs, (drain x).rest ++ y, (drain x).stop⟩ := by
  generalize hn : x.length = n
  induction n using Nat.strong_induction_on generalizing x with
  | _ n ih =>
      cases hs : stepOnce x with
      | needMore =>
          have hx : drain x = ⟨[], x, .ok⟩ := by rw [drain_eq, hs]
          rw [hx]
          simp
      | crash =>
          have hx : drain x = ⟨[], x, .crashed⟩ := by rw [drain_eq, hs]
          have hsy : stepOnce (x ++ y) = .crash := by
            rcases (stepOnce_spec x y).1 with h | h
            · rw [hs] at h; cases h
            · rw [hs] at h; exact h
          have hxy : drain (x ++ y) = ⟨[], x ++ y, .crashed⟩ := by
            rw [drain_eq, hsy]
          rw [hx, hxy]
          simp
      | looping =>
          have hx : drain x = ⟨[], x, .looping⟩ := by rw [drain_eq, hs]
          have hsy : stepOnce (x ++ y) = .looping := by
            rcases (stepOnce_spec x y).1 with h | h
            · rw [hs] at h; cases h
            · rw [hs] at h; exact h
          have hxy : drain (x ++ y) = ⟨[], x ++ y, .looping⟩ := by
            rw [drain_eq, hsy]
          rw [hx, hxy]
          simp
      | negative =>
          have hx : drain x = ⟨[], x, .negative⟩ := by rw [drain_eq, hs]
          have hsy : stepOnce (x ++ y) = .negative := by
            rcases (stepOnce_spec x y).1 with h | h
            · rw [hs] at h; cases h
            · rw [hs] at h; exact h
          have hxy : drain (x ++ y) = ⟨[], x ++ y, .negative⟩ := by
            rw [drain_eq, hsy]
          rw [hx, hxy]
          simp
      | discard r =>
          have hx : drain x = drain r := by rw [drain_eq, hs]
          have hsy : stepOnce (x ++ y) = .discard (r ++ y) := by
            rcases (stepOnce_spec x y).1 with h | h
            · rw [hs] at h; cases h
            · rw [hs] at h; exact h
          have hxy : drain (x ++ y) = drain (r ++ y) := by rw [drain_eq, hsy]
          have hr := (stepOnce_spec x []).2.1 r hs
          rw [hx, hxy]
          exact ih r.length (by omega) r rfl
      | msg m r =>
          have hx : drain x = ⟨m :: (drain r).msgs, (drain r).rest, (drain r).stop⟩ := by
            rw [drain_eq, hs]
          have hsy : stepOnce (x ++ y) = .msg m (r ++ y) := by
            rcases (stepOnce_spec x y).1 with h | h
            · rw [hs] at h; cases h
            · rw [hs] at h; exact h
          have hxy : drain (x ++ y) =
              ⟨m :: (drain (r ++ y)).msgs, (drain (r ++ y)).rest,
                (drain (r ++ y)).stop⟩ := by
            rw [drain_eq, hsy]
          have hr := (stepOnce_spec x []).2.2 m r hs
          have ihr := ih r.length (by omega) r rfl
          rw [hx, hxy, ihr]
          by_cases hok : (drain r).stop = .ok <;> simp [hok]

theorem drain_rest_exhausted (x : Bytes) :
    (drain x).stop = .ok → drain (drain x).rest = ⟨[], (drain x).rest, .ok⟩ := by
  generalize hn : x.length = n
  induction n using Nat.strong_induction_on generalizing x with
  | _ n ih =>
      intro hok
      cases hs : stepOnce x with
      | needMore =>
          have hx : drain x = ⟨[], x, .ok⟩ := by rw [drain_eq, hs]
          rw [hx]
          exact hx
      | crash =>
          have hx : drain x = ⟨[], x, .crashed⟩ := by rw [drain_eq, hs]
          rw [hx] at hok
          simp at hok
      | looping =>
          have hx : drain x = ⟨[], x, .looping⟩ := by rw [drain_eq, hs]
          rw [hx] at hok
          simp at hok
      | negative =>
          have hx : drain x = ⟨[], x, .negative⟩ := by rw [drain_eq, hs]
          rw [hx] at hok
          simp at hok
      | discard r =>
          have hx : drain x = drain r := by rw [drain_eq, hs]
          have hr := (stepOnce_spec x []).2.1 r hs
          rw [hx] at hok ⊢
          exact ih r.length (by omega) r rfl hok
      | msg m r =>
          have hx : drain x = ⟨m :: (drain r).msgs, (drain r).rest, (drain r).stop⟩ := by
            rw [drain_eq, hs]
          have hr := (stepOnce_spec x []).2.2 m r hs
          rw [hx] at hok ⊢
          simp only at hok ⊢
          exact ih r.length (by omega) r rfl hok

/-! ## Well-formed frames: digits, parsing, and header recognition -/

theorem dropWhile_eq_self_of_none (p : Nat → Bool) (l : Bytes)
    (h : ∀ x ∈ l, p x = false) : l.dropWhile p = l := by
  cases l with
  | nil => rfl
  | cons a t => simp [List.dropWhile_cons, h a (List.mem_cons_self a t)]

theorem pyStrip_of_no_space (l : Bytes) (h : ∀ x ∈ l, isSpaceB x = false) :
    pyStrip l = l := by
  unfold pyStrip
  rw [dropWhile_eq_self_of_none _ _ h,
    dropWhile_eq_self_of_none _ _ (fun x hx => h x (List.mem_reverse.mp hx)),
    List.reverse_reverse]

theorem pyStrip_space_cons (l : Bytes) (h : ∀ x ∈ l, isSpaceB x = false) :
    pyStrip (32 :: l) = l := by
  unfold pyStrip
  rw [List.dropWhile_cons]
  have h32 : isSpaceB 32 = true := rfl
  rw [h32]
  simp only [if_true]
  rw [dropWhile_eq_self_of_none _ _ h,
    dropWhile_eq_self_of_none _ _ (fun x hx => h x (List.mem_reverse.mp hx)),
    List.reverse_reverse]

theorem natDigitsFuel_irrel (f1 : Nat) : ∀ (f2 n : Nat), n < f1 → n < f2 →
    natDigitsFuel f1 n = natDigitsFuel f2 n := by
  induction f1 using Nat.strong_induction_on with
  | _ f1 ih =>
      intro f2 n h1 h2
      cases f1 with
      | zero => omega
      | succ g1 =>
          cases f2 with
          | zero => omega
          | succ g2 =>
              by_cases hn : n < 10
              · simp [natDigitsFuel, hn]
              · simp only [natDigitsFuel, hn, if_false]
                rw [ih g1 (by omega) g2 (n / 10) (by omega) (by omega)]

theorem natDigits_eq (n : Nat) :
    natDigits n = if n < 10 then [48 + n] else natDigits (n / 10) ++ [48 + n % 10] := by
  by_cases hn : n < 10
  · simp [natDigits, natDigitsFuel, hn]
  · have h1 : natDigits n = natDigitsFuel n (n / 10) ++ [48 + n % 10] := by
      simp [natDigits, natDigitsFuel, hn]
    rw [h1, natDigitsFuel_irrel n (n / 10 + 1) (n / 10) (by omega) (by omega)]
    simp [natDigits, hn]

theorem natDigits_mem (n : Nat) : ∀ d ∈ natDigits n, 48 ≤ d ∧ d ≤ 57 := by
  induction n using Nat.strong_induction_on with
  | _ n ih =>
      intro d hd
      rw [natDigits_eq] at hd
      by_cases hn : n < 10
      · simp [hn] at hd
        omega
      · simp [hn] at hd
        rcases hd with hd | hd
        · exact ih (n / 10) (by omega) d hd
        · omega

theorem natDigits_ne_nil (n : Nat) : natDigits n ≠ [] := by
  rw [natDigits_eq]
  by_cases hn : n < 10 <;> simp [hn]

theorem natDigits_no_space (n : Nat) : ∀ x ∈ natDigits n, isSpaceB x = false := by
  intro x hx
  have := natDigits_mem n x hx
  simp only [isSpaceB, Bool.or_eq_false_iff, decide_eq_false_iff_not]
  omega

theorem pyDigitSeq_digit_cons (d : Nat) (t : Bytes) (acc : Nat)
    (hd : isDigitB d = true) :
    pyDigitSeq (d :: t) acc = pyDigitSeq t (acc * 10 + (d - 48)) := by
  cases t with
  | nil => simp [pyDigitSeq, hd]
  | cons b u => simp [pyDigitSeq, hd]

theorem pyDigitSeq_natDigits (n : Nat) : ∀ (t : Bytes) (acc : Nat),
    pyDigitSeq (natDigits n ++ t) acc =
      pyDigitSeq t (acc * 10 ^ (natDigits n).length + n) := by
  induction n using Nat.strong_induction_on with
  | _ n ih =>
      intro t acc
      rw [natDigits_eq]
      by_cases hn : n < 10
      · simp only [hn, if_true]
        rw [List.singleton_append,
          pyDigitSeq_digit_cons _ _ _ (by simp [isDigitB]; omega)]
        have h1 : 48 + n - 48 = n := by omega
        have h2 : acc * 10 ^ [48 + n].length + n = acc * 10 + n := by
          simp
        rw [h1, h2]
      · simp only [hn, if_false]
        rw [List.append_assoc, List.singleton_append,
          ih (n / 10) (by omega) ((48 + n % 10) :: t) acc,
          pyDigitSeq_digit_cons _ _ _ (by simp [isDigitB]; omega)]
        congr 1
        have h1 : 48 + n % 10 - 48 = n % 10 := by omega
        rw [h1]
        have h2 : (natDigits (n / 10) ++ [48 + n % 10]).length =
            (natDigits (n / 10)).length + 1 := by simp
        rw [h2]
        calc (acc * 10 ^ (natDigits (n / 10)).length + n / 10) * 10 + n % 10
            = acc * (10 ^ (natDigits (n / 10)).length * 10) +
                (n / 10 * 10 + n % 10) := by ring
          _ = acc * 10 ^ ((natDigits (n / 10)).length + 1) + n := by
                rw [pow_succ]
                have h3 : n / 10 * 10 + n % 10 = n := by omega
                rw [h3]

theorem pyDigitStart_natDigits (n : Nat) : pyDigitStart (natDigits n) = some n := by
  obtain ⟨d, rest, hd⟩ : ∃ d rest, natDigits n = d :: rest := by
    cases h : natDigits n with
    | nil => exact absurd h (natDigits_ne_nil n)
    | cons d rest => exact ⟨d, rest, rfl⟩
  have hmem := natDigits_mem n d (by rw [hd]; exact List.mem_cons_self d rest)
  have hdig : isDigitB d = true := by
    simp only [isDigitB, Bool.and_eq_true, decide_eq_true_eq]
    omega
  have h1 : pyDigitStart (natDigits n) = pyDigitSeq (natDigits n) 0 := by
    rw [hd, pyDigitSeq_digit_cons d rest 0 hdig]
    simp [pyDigitStart, hdig]
  rw [h1, show natDigits n = natDigits n ++ [] by simp,
    pyDigitSeq_natDigits n [] 0]
  simp [pyDigitSeq]

theorem pyInt_natDigits (n : Nat) : pyInt (natDigits n) = some (n : Int) := by
  obtain ⟨d, rest, hd⟩ : ∃ d rest, natDigits n = d :: rest := by
    cases h : natDigits n with
    | nil => exact absurd h (natDigits_ne_nil n)
    | cons d rest => exact ⟨d, rest, rfl⟩
  have hmem := natDigits_mem n d (by rw [hd]; exact List.mem_cons_self d rest)
  unfold pyInt
  rw [pyStrip_of_no_space _ (natDigits_no_space n), hd]
  have hd43 : ¬ d = 43 := by omega
  have hd45 : ¬ d = 45 := by omega
  simp only [hd43, hd45, if_false]
  rw [← hd, pyDigitStart_natDigits n]
  rfl

theorem header_text_no13 (n : Nat) :
    ∀ x ∈ asciiBytes "Content-Length: " ++ natDigits n, x ≠ 13 := by
  intro x hx
  rcases List.mem_append.mp hx with h | h
  · have hall : ∀ y ∈ asciiBytes "Content-Length: ", y ≠ 13 := by decide
    exact hall x h
  · have := natDigits_mem n x h
    omega

theorem findSub_crlf_none (b : Bytes) (hb : ∀ x ∈ b, x ≠ 13) :
    findSub crlf b = none := by
  induction b with
  | nil => rfl
  | cons a t ih =>
      have ha : a ≠ 13 := hb a (List.mem_cons_self a t)
      have hnp : crlf.isPrefixOf (a :: t) = false := by
        apply Bool.eq_false_iff.mpr
        intro hc
        rw [ List.isPrefixOf_iff_prefix] at hc
        rcases hc with ⟨s, hs⟩
        simp [crlf] at hs
        exact ha hs.1.symm
      unfold findSub
      rw [hnp, ih (fun x hx => hb x (List.mem_cons_of_mem a hx))]
      rfl

theorem splitLines_no13 (b : Bytes) (hb : ∀ x ∈ b, x ≠ 13) :
    splitLinesCRLF b = [b] := by
  have hn : findSub crlf b = none := findSub_crlf_none b hb
  unfold splitLinesCRLF
  cases hl : b.length with
  | zero => rfl
  | succ l => simp [splitLinesFuel, hn]

theorem findSub_boundary (p r : Bytes) (hp : ∀ x ∈ p, x ≠ 13) :
    findSub crlf2 ((p ++ crlf2) ++ r) = some p.length := by
  induction p with
  | nil =>
      have hpre : crlf2.isPrefixOf (crlf2 ++ r) = true := by
        rw [ List.isPrefixOf_iff_prefix]
        exact List.prefix_append _ _
      show findSub crlf2 (13 :: ([10, 13, 10] ++ r)) = some 0
      unfold findSub
      rw [show (13 :: ([10, 13, 10] ++ r)) = crlf2 ++ r from rfl, hpre]
      rfl
  | cons a p' ih =>
      have ha : a ≠ 13 := hp a (List.mem_cons_self a p')
      have hnp : crlf2.isPrefixOf (a :: ((p' ++ crlf2) ++ r)) = false := by
        apply Bool.eq_false_iff.mpr
        intro hc
        rw [ List.isPrefixOf_iff_prefix] at hc
        rcases hc with ⟨s, hs⟩
        simp [crlf2] at hs
        exact ha hs.1.symm
      show findSub crlf2 (a :: ((p' ++ crlf2) ++ r)) = some (p'.length + 1)
      unfold findSub
      rw [hnp, ih (fun x hx => hp x (List.mem_cons_of_mem a hx))]
      rfl

theorem findByte_append (x : Nat) (q t : Bytes) (i : Nat)
    (h : findByte x q = some i) : findByte x (q ++ t) = some i := by
  induction q generalizing i with
  | nil => cases h
  | cons b rest ih =>
      unfold findByte at h
      show findByte x (b :: (rest ++ t)) = some i
      unfold findByte
      by_cases hbx : b = x
      · rw [if_pos hbx] at h ⊢
        exact h
      · rw [if_neg hbx] at h ⊢
        cases hj : findByte x rest with
        | none => rw [hj] at h; cases h
        | some j =>
            rw [hj] at h
            simp only [Option.map_some'] at h
            cases h
            rw [ih j hj]
            rfl

theorem findCLV_single_pos (line : Bytes) (i : Nat)
    (hpre : contentLengthName.isPrefixOf line = true)
    (hb : findByte 58 line = some i) :
    findContentLengthValue [line] = some (line.drop (i + 1)) := by
  unfold findContentLengthValue
  rw [hpre, hb]
  simp

theorem stepOnce_encode (c rest : Bytes) :
    stepOnce (write_message_bytes c ++ rest) = .msg c rest := by
  have hname : asciiBytes "Content-Length: " = contentLengthName ++ [32] := by decide
  have hp13 := header_text_no13 c.length
  have hbuf : write_message_bytes c ++ rest =
      ((asciiBytes "Content-Length: " ++ natDigits c.length) ++ crlf2) ++ (c ++ rest) := by
    simp [write_message_bytes, List.append_assoc]
  rw [hbuf]
  have hfind := findSub_boundary (asciiBytes "Content-Length: " ++ natDigits c.length)
    (c ++ rest) hp13
  have htake : (((asciiBytes "Content-Length: " ++ natDigits c.length) ++ crlf2) ++
      (c ++ rest)).take (asciiBytes "Content-Length: " ++ natDigits c.length).length =
      asciiBytes "Content-Length: " ++ natDigits c.length := by
    rw [List.append_assoc]
    exact List.take_left _ _
  have hlines := splitLines_no13 _ hp13
  have hpre : contentLengthName.isPrefixOf
      (asciiBytes "Content-Length: " ++ natDigits c.length) = true := by
    rw [hname, List.append_assoc, List.isPrefixOf_iff_prefix]
    exact List.prefix_append _ _
  have hfb : findByte 58 (asciiBytes "Content-Length: " ++ natDigits c.length) =
      some 14 := by
    rw [hname, List.append_assoc]
    exact findByte_append 58 contentLengthName _ 14 (by decide)
  have hclv := findCLV_single_pos _ 14 hpre hfb
  have hdrop15 : (asciiBytes "Content-Length: " ++ natDigits c.length).drop (14 + 1) =
      32 :: natDigits c.length := by
    rw [hname, List.append_assoc,
      show ((14 : Nat) + 1) = contentLengthName.length from rfl, List.drop_left]
    rfl
  have hstrip : pyStrip (32 :: natDigits c.length) = natDigits c.length :=
    pyStrip_space_cons _ (natDigits_no_space _)
  have hint : pyInt (natDigits c.length) = some (c.length : Int) := pyInt_natDigits _
  have hassoc : ((asciiBytes "Content-Length: " ++ natDigits c.length) ++ crlf2) ++
      (c ++ rest) =
      (((asciiBytes "Content-Length: " ++ natDigits c.length) ++ crlf2) ++ c) ++ rest := by
    simp [List.append_assoc]
  have hlen2 : (asciiBytes "Content-Length: " ++ natDigits c.length).length + 4 +
      c.length = (((asciiBytes "Content-Length: " ++ natDigits c.length) ++ crlf2) ++
        c).length := by
    simp [crlf2]
    omega
  have hlen3 : (asciiBytes "Content-Length: " ++ natDigits c.length).length + 4 =
      ((asciiBytes "Content-Length: " ++ natDigits c.length) ++ crlf2).length := by
    simp [crlf2]
    omega
  have htake2 : ((((asciiBytes "Content-Length: " ++ natDigits c.length) ++ crlf2) ++
      (c ++ rest)).take ((asciiBytes "Content-Length: " ++ natDigits c.length).length +
        4 + c.length)) =
      ((asciiBytes "Content-Length: " ++ natDigits c.length) ++ crlf2) ++ c := by
    rw [hassoc, hlen2]
    exact List.take_left _ _
  have hbody : (((asciiBytes "Content-Length: " ++ natDigits c.length) ++ crlf2) ++
      c).drop ((asciiBytes "Content-Length: " ++ natDigits c.length).length + 4) = c := by
    rw [hlen3]
    exact List.drop_left _ _
  have hrest : ((((asciiBytes "Content-Length: " ++ natDigits c.length) ++ crlf2) ++
      (c ++ rest)).drop ((asciiBytes "Content-Length: " ++ natDigits c.length).length +
        4 + c.length)) = rest := by
    rw [hassoc, hlen2]
    exact List.drop_left _ _
  have hns : ((((asciiBytes "Content-Length: " ++ natDigits c.length).length : Int) + 4) +
      (c.length : Int)).toNat = (asciiBytes "Content-Length: " ++
        natDigits c.length).length + 4 + c.length := by omega
  have hcond : ¬ (((((asciiBytes "Content-Length: " ++ natDigits c.length) ++ crlf2) ++
      (c ++ rest)).length : Int) <
      (((asciiBytes "Content-Length: " ++ natDigits c.length).length : Int) + 4) +
        (c.length : Int)) := by
    simp [crlf2]
    push_cast
    omega
  have hneg : ¬ ((((asciiBytes "Content-Length: " ++ natDigits c.length).length : Int) +
      4) + (c.length : Int) < 0) := by omega
  have hzero : ¬ ((((asciiBytes "Content-Length: " ++ natDigits c.length).length : Int) +
      4) + (c.length : Int) = 0) := by omega
  unfold stepOnce
  rw [hfind]
  simp only [htake, hlines, hclv, hdrop15, hstrip, hint]
  rw [if_neg hcond, if_neg hneg, if_neg hzero, hns, htake2, hbody, hrest]

theorem drain_encodeStream (bodies : List Bytes) :
    drain (encodeStream bodies) = ⟨bodies, [], .ok⟩ := by
  induction bodies with
  | nil => rfl
  | cons c bs ih =>
      have henc : encodeStream (c :: bs) = write_message_bytes c ++ encodeStream bs := by
        simp [encodeStream]
      rw [henc, drain_eq, stepOnce_encode c (encodeStream bs)]
      simp [ih]

theorem runFramer_chunked (sizes : List Nat) :
    ∀ (s buf : Bytes) (out : List Bytes),
      (drain (buf ++ s)).stop = .ok →
      drain buf = ⟨[], buf, .ok⟩ →
      runFramer ⟨buf, out, .ok⟩ (chunkBySizes sizes s) =
        ⟨(drain (buf ++ s)).rest, out ++ (drain (buf ++ s)).msgs, .ok⟩ := by
  induction sizes with
  | nil =>
      intro s buf out hok hbuf
      show runFramer ⟨buf, out, .ok⟩ [s] = _
      by_cases hs : s.isEmpty
      · have hnil : s = [] := List.isEmpty_iff.mp hs
        subst hnil
        simp [runFramer, hbuf]
      · have h1 : runFramer ⟨buf, out, .ok⟩ [s] = feedOne ⟨buf, out, .ok⟩ s := by
          simp [runFramer, hs]
        rw [h1]
        unfold feedOne
        simp [hok]
  | cons n ns ih =>
      intro s buf out hok hbuf
      show runFramer ⟨buf, out, .ok⟩
          (s.take (n + 1) :: chunkBySizes ns (s.drop (n + 1))) = _
      by_cases hs : (s.take (n + 1)).isEmpty
      · have hnil : s = [] := by
          cases s with
          | nil => rfl
          | cons a t => simp [List.isEmpty_iff] at hs
        subst hnil
        simp [runFramer, hs, hbuf]
      · have hsplit : buf ++ s = (buf ++ s.take (n + 1)) ++ s.drop (n + 1) := by
          rw [List.append_assoc, List.take_append_drop]
        have hda := drain_append (buf ++ s.take (n + 1)) (s.drop (n + 1))
        have hok1 : (drain (buf ++ s.take (n + 1))).stop = .ok := by
          by_contra hno
          rw [hsplit, hda, if_neg hno] at hok
          exact hno hok
        rw [if_pos hok1] at hda
        have hstep : runFramer ⟨buf, out, .ok⟩
            (s.take (n + 1) :: chunkBySizes ns (s.drop (n + 1))) =
            runFramer (feedOne ⟨buf, out, .ok⟩ (s.take (n + 1)))
              (chunkBySizes ns (s.drop (n + 1))) := by
          simp [runFramer, hs]
        have hfeed : feedOne ⟨buf, out, .ok⟩ (s.take (n + 1)) =
            ⟨(drain (buf ++ s.take (n + 1))).rest,
              out ++ (drain (buf ++ s.take (n + 1))).msgs, .ok⟩ := by
          unfold feedOne
          simp [hok1]
        have hexh := drain_rest_exhausted (buf ++ s.take (n + 1)) hok1
        have hok2 : (drain ((drain (buf ++ s.take (n + 1))).rest ++
            s.drop (n + 1))).stop = .ok := by
          rw [hsplit, hda] at hok
          exact hok
        rw [hstep, hfeed,
          ih (s.drop (n + 1)) (drain (buf ++ s.take (n + 1))).rest
            (out ++ (drain (buf ++ s.take (n + 1))).msgs) hok2 hexh,
          hsplit, hda]
        simp

/-- C5: the framing round trip.  Any sequence of message bodies, framed
by `_write_message` into one byte stream and fed to the
`_handle_responses` loop in arbitrary nonempty chunks (`chunkBySizes`
realizes every such chunking), is delivered to the JSON-decoding stage
as exactly the original bodies, in order, leaving an empty buffer and a
healthy loop — including chunks smaller than one message and messages
spanning several reads. -/
theorem framing_roundtrip (bodies : List Bytes) (sizes : List Nat) :
    runFramer initialFramerState (chunkBySizes sizes (encodeStream bodies)) =
      ⟨[], bodies, .ok⟩ := by
  have henc := drain_encodeStream bodies
  have h0 : drain ([] ++ encodeStream bodies) = ⟨bodies, [], .ok⟩ := by
    simpa using henc
  have hnil : drain ([] : Bytes) = ⟨[], [], .ok⟩ := rfl
  have := runFramer_chunked sizes (encodeStream bodies) [] []
    (by rw [h0]) hnil
  rw [initialFramerState, this, h0]
  simp

theorem malformed_header_handling_witness :
    stepOnce (asciiBytes "X-Header: 1" ++ crlf2 ++ asciiBytes "rest") =
      StepR.discard (asciiBytes "rest") ∧
    stepOnce (asciiBytes "Content-Length: five" ++ crlf2) = StepR.crash :=
  ⟨(malformed_header_handling (asciiBytes "X-Header: 1" ++ crlf2 ++ asciiBytes "rest")
      11 rfl).1 rfl,
   (malformed_header_handling (asciiBytes "Content-Length: five" ++ crlf2)
      20 rfl).2 (asciiBytes " five") rfl rfl⟩

end LspClient
